import Mathlib

/-!
Verification of the CFG layer (`source/opt/cfg.h`) of the SPIR-V optimizer.

Blocks are identified by their numeric label (`uint32_t`, modelled as `Nat`).
The two `std::unordered_map`s of class `CFG` (`id2block_`, `label2preds_`)
are modelled as association lists with insert-or-assign / erase / lookup
operations mirroring `operator[]`, `erase` and `at`/`count`.

Operations whose bodies appear inline in `cfg.h` (`preds`, `RegisterBlock`,
`ForgetBlock`, `RemoveEdge`, `AddEdge`, `RemoveSuccessorEdges`) are
translated directly from that source.  Operations only declared there
(`AddEdges`, the constructor, the traversal engine, `FindReachableBlocks`)
are modelled from the specification document, as marked in their doc
comments.
-/

/-- Lookup in an association list keyed by `Nat`; models
`unordered_map::find` / `count` / `at`. -/
def mfind? {α : Type} (m : List (Nat × α)) (k : Nat) : Option α :=
  match m with
  | [] => none
  | kv :: rest => if kv.1 = k then some kv.2 else mfind? rest k

/-- Insert-or-assign in an association list; models `unordered_map::operator[]`
followed by assignment (last write wins). -/
def mset {α : Type} (m : List (Nat × α)) (k : Nat) (v : α) : List (Nat × α) :=
  match m with
  | [] => [(k, v)]
  | kv :: rest => if kv.1 = k then (k, v) :: rest else kv :: mset rest k v

/-- Key removal in an association list; models `unordered_map::erase`. -/
def merase {α : Type} (m : List (Nat × α)) (k : Nat) : List (Nat × α) :=
  m.filter (fun kv => kv.1 != k)

/-- Modelled from the spec: `ir::BasicBlock` (its header `basic_block.h` is
not under `src/`).  Per the spec's data model a basic block exposes its
numeric label, the branch-target labels its terminator names (in declared
order, with multiplicity — `ForEachSuccessorLabel` iterates exactly these),
and, when the block is a structured-construct header, a declared merge-block
label and (for loop headers) a continue-block label. -/
structure BasicBlock where
  id : Nat
  succLabels : List Nat
  mergeLabel : Option Nat
  continueLabel : Option Nat
deriving Repr, DecidableEq

/-- Every label named as a target by the block: the terminator's branch
targets followed by the declared merge and continue labels, if any. -/
def BasicBlock.targets (b : BasicBlock) : List Nat :=
  b.succLabels ++ b.mergeLabel.toList ++ b.continueLabel.toList

/-- The mutable state of class `CFG` (cfg.h:156-175) relevant to the edge
table: the identity map `id2block_` and the predecessor map `label2preds_`. -/
structure CFG where
  id2block : List (Nat × BasicBlock)
  label2preds : List (Nat × List Nat)
deriving Repr, DecidableEq

/-- The CFG with both maps empty. -/
def CFG.empty : CFG := { id2block := [], label2preds := [] }

/-- CFG::preds (cfg.h:37-40): `assert(label2preds_.count(blk_id))` then
`label2preds_.at(blk_id)`.  The failed assertion is modelled as `none`. -/
def CFG.preds (cfg : CFG) (blkId : Nat) : Option (List Nat) :=
  mfind? cfg.label2preds blkId

/-- The predecessor list actually stored for `blkId`, read off as a list
(empty when no entry exists); convenient for stating count properties. -/
def CFG.predList (cfg : CFG) (blkId : Nat) : List Nat :=
  (cfg.preds blkId).getD []

/-- CFG::AddEdge (cfg.h:114-116): `label2preds_[succ_blk_id].push_back(pred_blk_id)`;
`operator[]` creates an empty vector when the key is absent. -/
def CFG.AddEdge (cfg : CFG) (predBlkId succBlkId : Nat) : CFG :=
  { cfg with
    label2preds :=
      match mfind? cfg.label2preds succBlkId with
      | some l => mset cfg.label2preds succBlkId (l ++ [predBlkId])
      | none => mset cfg.label2preds succBlkId [predBlkId] }

/-- CFG::RemoveEdge (cfg.h:101-107): if `label2preds_` has no entry for
`succ_blk_id`, return unchanged; otherwise `std::find` the first occurrence
of `pred_blk_id` in the vector and erase it if present (`List.erase`). -/
def CFG.RemoveEdge (cfg : CFG) (predBlkId succBlkId : Nat) : CFG :=
  match mfind? cfg.label2preds succBlkId with
  | none => cfg
  | some l =>
      { cfg with
        label2preds := mset cfg.label2preds succBlkId (l.erase predBlkId) }

/-- CFG::RemoveSuccessorEdges (cfg.h:123-126): for each label the block's
terminator names (`ForEachSuccessorLabel`), `RemoveEdge(bb->id(), succ_id)`. -/
def CFG.RemoveSuccessorEdges (cfg : CFG) (bb : BasicBlock) : CFG :=
  bb.succLabels.foldl (fun c succId => c.RemoveEdge bb.id succId) cfg

/-- Modelled from the spec: CFG::AddEdges, declared at cfg.h:110 with its
body in `cfg.cpp`, which is not under `src/`.  Per §4.1 of the spec,
registration "adds a predecessor edge from `b` to every block `b`'s
terminator targets (including merge/continue if declared — an edge is added
for every label the block's terminator or merge declaration names as a
target)"; and since `preds` on a registered block must return an "ordered
predecessor id list (may be empty)" (§6), an entry for the block itself is
forced to exist even when nothing ever branches to it. -/
def CFG.AddEdges (cfg : CFG) (blk : BasicBlock) : CFG :=
  let forced : CFG :=
    match mfind? cfg.label2preds blk.id with
    | some _ => cfg
    | none => { cfg with label2preds := mset cfg.label2preds blk.id [] }
  blk.targets.foldl (fun c succId => c.AddEdge blk.id succId) forced

/-- CFG::RegisterBlock (cfg.h:88-92): `id2block_[blk_id] = blk; AddEdges(blk);`. -/
def CFG.RegisterBlock (cfg : CFG) (blk : BasicBlock) : CFG :=
  CFG.AddEdges { cfg with id2block := mset cfg.id2block blk.id blk } blk

/-- CFG::ForgetBlock (cfg.h:95-99): `id2block_.erase(blk->id());
label2preds_.erase(blk->id()); RemoveSuccessorEdges(blk);`. -/
def CFG.ForgetBlock (cfg : CFG) (blk : BasicBlock) : CFG :=
  CFG.RemoveSuccessorEdges
    { cfg with
      id2block := merase cfg.id2block blk.id,
      label2preds := merase cfg.label2preds blk.id } blk

/-- Label of the pseudo-entry block (`pseudo_entry_block_`, cfg.h:166);
the synthetic block carries label 0, which no real block uses. -/
def pseudoEntryId : Nat := 0

/-- Label of the pseudo-exit block (`pseudo_exit_block_`, cfg.h:169);
a synthetic label above every id the module uses. -/
def pseudoExitId : Nat := 4194303

/-- Modelled from the spec: the `CFG(ir::Module*)` constructor (declared
cfg.h:30, body in `cfg.cpp`, not under `src/`).  Per §2 and §4.2 of the
spec, construction registers every block of the function into the edge
table, then adds a pseudo-entry→block edge for each block whose predecessor
set is empty, and a block→pseudo-exit edge for each block whose terminator
names zero successors.  A function is modelled as its ordered block list. -/
def buildCFG (blocks : List BasicBlock) : CFG :=
  let registered := blocks.foldl CFG.RegisterBlock CFG.empty
  let withEntry := blocks.foldl
    (fun c b => if c.predList b.id = [] then c.AddEdge pseudoEntryId b.id else c)
    registered
  blocks.foldl
    (fun c b => if b.succLabels = [] then c.AddEdge b.id pseudoExitId else c)
    withEntry

/-- Real successor labels of the block registered under `id`: the traversal
engine follows `ForEachSuccessorLabel` of `id2block_[id]` (real branch
targets only, never the structured successor list). -/
def cfgSuccs (cfg : CFG) (id : Nat) : List Nat :=
  match mfind? cfg.id2block id with
  | some b => b.succLabels
  | none => []

/-- Generic depth-first child processing: runs `visit` on each unvisited
element of the successor list, threading the seen set through and
concatenating the emitted post-order segments. -/
def dfsChildren (visit : Nat → List Nat → List Nat × List Nat) :
    List Nat → List Nat → List Nat × List Nat
  | [], seen => (seen, [])
  | v :: vs, seen =>
      if v ∈ seen then dfsChildren visit vs seen
      else
        let r1 := visit v seen
        let r2 := dfsChildren visit vs r1.1
        (r2.1, r1.2 ++ r2.2)

/-- Modelled from the spec: `CFG::ComputePostOrderTraversal` (declared
cfg.h:152-154, body not under `src/`).  Per §4.3 and the declaration's
comment, the traversal marks the block seen, recurses into each not-yet-seen
successor, and appends the block to the order after all its successors; the
pair returned is (seen set, emitted post-order).  The fuel argument bounds
the recursion depth; call sites supply enough fuel for it never to run out. -/
def dfsVisit (succs : Nat → List Nat) : Nat → Nat → List Nat → List Nat × List Nat
  | 0, _, seen => (seen, [])
  | fuel + 1, u, seen =>
      let r := dfsChildren (dfsVisit succs fuel) (succs u) (u :: seen)
      (r.1, r.2 ++ [u])

/-- Reachability over a successor function: `Reach succs u x` holds when a
(possibly empty) chain of successor edges leads from `u` to `x`. -/
inductive Reach (succs : Nat → List Nat) (start : Nat) : Nat → Prop
  | refl : Reach succs start start
  | step {v w : Nat} : Reach succs start v → w ∈ succs v → Reach succs start w

/-- Union of the successor labels of every block stored in the identity
map; together with the start block this bounds every node the traversal
can ever reach. -/
def succLabelUnion (m : List (Nat × BasicBlock)) : Finset Nat :=
  m.foldr (fun kv acc => kv.2.succLabels.toFinset ∪ acc) ∅

/-- Finite universe of labels relevant to a traversal from `start`. -/
def cfgUniverse (cfg : CFG) (start : Nat) : Finset Nat :=
  insert start (succLabelUnion cfg.id2block)

/-- Modelled from the spec: `CFG::ForEachBlockInPostOrder` (cfg.h:77-78,
body not under `src/`).  Per §4.3 it performs the depth-first post-order
traversal over real successor edges from `bb` with an initially empty seen
set and delivers each traversed block to the visitor in post-order; the
returned list is the visitor-call sequence. -/
def CFG.ForEachBlockInPostOrder (cfg : CFG) (bb : Nat) : List Nat :=
  (dfsVisit (cfgSuccs cfg) (cfgUniverse cfg bb).card bb []).2

/-- Modelled from the spec: `CFG::ForEachBlockInReversePostOrder`
(cfg.h:83-84, body not under `src/`).  Per §4.3 the reverse-post-order
visitor sequence is the exact reverse of the post-order sequence (the
implementation computes the post-order vector and iterates it backwards),
not an independent traversal. -/
def CFG.ForEachBlockInReversePostOrder (cfg : CFG) (bb : Nat) : List Nat :=
  (cfg.ForEachBlockInPostOrder bb).reverse

/-- Modelled from the spec: `CFG::FindReachableBlocks` (declared cfg.h:135,
body not under `src/`).  Per §4.7 it returns the set of blocks reachable
from `start` over real successor edges, "computed via the Traversal
Engine": every block the post-order visitor delivers is inserted into the
result set. -/
def CFG.FindReachableBlocks (cfg : CFG) (start : Nat) : Finset Nat :=
  (cfg.ForEachBlockInPostOrder start).toFinset

/-- No block of the list names `x` as a target (terminator branch target or
declared merge/continue label): `x` has no real predecessor. -/
def noRealPreds (blocks : List BasicBlock) (x : Nat) : Prop :=
  ∀ b ∈ blocks, x ∉ b.targets

instance (blocks : List BasicBlock) (x : Nat) : Decidable (noRealPreds blocks x) :=
  List.decidableBAll _ blocks

/-- Registration invariant of the two maps: every identity-map key owns a
predecessor-list entry, so `preds` succeeds on every registered id. -/
def RegInv (cfg : CFG) : Prop :=
  ∀ kv ∈ cfg.id2block, (mfind? cfg.label2preds kv.1).isSome = true

instance (cfg : CFG) : Decidable (RegInv cfg) :=
  List.decidableBAll _ cfg.id2block

/-- Example block: label 4, no successors (a return-style block). -/
def exitBlock4 : BasicBlock := ⟨4, [], none, none⟩

/-- Example block: label 3, no successors. -/
def exitBlock3 : BasicBlock := ⟨3, [], none, none⟩

/-- Example block: label 2, branches to 3, declares merge block 4. -/
def headerBlock2 : BasicBlock := ⟨2, [3], some 4, none⟩

/-- Example CFG with blocks 4, 3 and the header 2 registered. -/
def mergeCFG : CFG :=
  ((CFG.empty.RegisterBlock exitBlock4).RegisterBlock exitBlock3).RegisterBlock
    headerBlock2

/-- Example block: label 5, branches to 6. -/
def branchBlock5 : BasicBlock := ⟨5, [6], none, none⟩

/-- Example block: label 6, no successors. -/
def exitBlock6 : BasicBlock := ⟨6, [], none, none⟩

/-- Example CFG with blocks 6 and 5 registered. -/
def chainCFG : CFG :=
  (CFG.empty.RegisterBlock exitBlock6).RegisterBlock branchBlock5

/-- Example CFG whose entry 7 holds the predecessor list [2, 3, 3]
(parallel edges 3→7). -/
def dupPredCFG : CFG := ((CFG.empty.AddEdge 2 7).AddEdge 3 7).AddEdge 3 7

/-- Example function: entry block 1 branching to block 2, which returns. -/
def entryExitBlocks : List BasicBlock :=
  [⟨1, [2], none, none⟩, ⟨2, [], none, none⟩]

/-! ### Association-list map lemmas -/

theorem mfind?_mset_self {α : Type} (m : List (Nat × α)) (k : Nat) (v : α) :
    mfind? (mset m k v) k = some v := by
  induction m with
  | nil => simp [mset, mfind?]
  | cons kv rest ih =>
    by_cases h : kv.1 = k
    · simp [mset, h, mfind?]
    · simp [mset, h, mfind?, ih]

theorem mfind?_mset_ne {α : Type} (m : List (Nat × α)) {k k' : Nat} (v : α)
    (h : k' ≠ k) : mfind? (mset m k v) k' = mfind? m k' := by
  have hkk : ¬ k = k' := fun e => h e.symm
  induction m with
  | nil => simp [mset, mfind?, hkk]
  | cons kv rest ih =>
    by_cases hk : kv.1 = k
    · have hne : ¬ kv.1 = k' := fun e => h (hk ▸ e).symm
      rw [mset, if_pos hk, mfind?, if_neg hkk, mfind?, if_neg hne]
    · rw [mset, if_neg hk, mfind?, mfind?]
      by_cases hk' : kv.1 = k'
      · rw [if_pos hk', if_pos hk']
      · rw [if_neg hk', if_neg hk', ih]

theorem merase_cons {α : Type} (kv : Nat × α) (rest : List (Nat × α)) (k : Nat) :
    merase (kv :: rest) k =
      if kv.1 = k then merase rest k else kv :: merase rest k := by
  by_cases h : kv.1 = k
  · simp [merase, List.filter_cons, h]
  · simp [merase, List.filter_cons, h]

theorem mfind?_merase_self {α : Type} (m : List (Nat × α)) (k : Nat) :
    mfind? (merase m k) k = none := by
  induction m with
  | nil => simp [merase, mfind?]
  | cons kv rest ih =>
    rw [merase_cons]
    by_cases h : kv.1 = k
    · rw [if_pos h]
      exact ih
    · rw [if_neg h, mfind?, if_neg h]
      exact ih

theorem mfind?_merase_ne {α : Type} (m : List (Nat × α)) {k k' : Nat}
    (h : k' ≠ k) : mfind? (merase m k) k' = mfind? m k' := by
  induction m with
  | nil => simp [merase, mfind?]
  | cons kv rest ih =>
    rw [merase_cons]
    by_cases hk : kv.1 = k
    · have hne : ¬ kv.1 = k' := fun e => h (hk ▸ e).symm
      rw [if_pos hk, mfind?, if_neg hne]
      exact ih
    · rw [if_neg hk, mfind?, mfind?]
      by_cases hk' : kv.1 = k'
      · rw [if_pos hk', if_pos hk']
      · rw [if_neg hk', if_neg hk', ih]

theorem mem_mset {α : Type} {m : List (Nat × α)} {k : Nat} {v : α}
    {kv : Nat × α} (h : kv ∈ mset m k v) : kv = (k, v) ∨ kv ∈ m := by
  induction m with
  | nil => simpa [mset] using h
  | cons hd rest ih =>
    by_cases hk : hd.1 = k
    · rw [mset] at h
      simp only [hk, if_pos] at h
      rcases List.mem_cons.mp h with h | h
      · exact Or.inl h
      · exact Or.inr (List.mem_cons_of_mem _ h)
    · rw [mset] at h
      simp only [hk, if_neg, not_false_iff] at h
      rcases List.mem_cons.mp h with h | h
      · exact Or.inr (h ▸ List.mem_cons_self _ _)
      · rcases ih h with h' | h'
        · exact Or.inl h'
        · exact Or.inr (List.mem_cons_of_mem _ h')

theorem predList_eq_of_preds {cfg : CFG} {x : Nat} {l : List Nat}
    (h : cfg.preds x = some l) : cfg.predList x = l := by
  simp [CFG.predList, h]

theorem preds_of_predList_ne_nil {cfg : CFG} {x : Nat}
    (h : cfg.predList x ≠ []) : cfg.preds x = some (cfg.predList x) := by
  cases hp : cfg.preds x with
  | none => exact absurd (by simp [CFG.predList, hp]) h
  | some l => simp [CFG.predList, hp]

theorem mfind?_mem {α : Type} {m : List (Nat × α)} {k : Nat} {v : α}
    (h : mfind? m k = some v) : (k, v) ∈ m := by
  induction m with
  | nil => simp [mfind?] at h
  | cons kv rest ih =>
    by_cases hk : kv.1 = k
    · rw [mfind?] at h
      simp only [hk, if_pos] at h
      have : kv = (k, v) := by
        cases kv
        simp_all
      exact this ▸ List.mem_cons_self _ _
    · rw [mfind?] at h
      simp only [hk, if_neg, not_false_iff] at h
      exact List.mem_cons_of_mem _ (ih h)

/-! ### Single edge mutation lemmas -/

theorem preds_AddEdge_self (cfg : CFG) (p s : Nat) :
    (cfg.AddEdge p s).preds s = some (cfg.predList s ++ [p]) := by
  unfold CFG.AddEdge CFG.preds CFG.predList
  cases h : mfind? cfg.label2preds s with
  | some l => simp [CFG.preds, h, mfind?_mset_self]
  | none => simp [CFG.preds, h, mfind?_mset_self]

theorem predList_AddEdge_self (cfg : CFG) (p s : Nat) :
    (cfg.AddEdge p s).predList s = cfg.predList s ++ [p] :=
  predList_eq_of_preds (preds_AddEdge_self cfg p s)

theorem preds_AddEdge_ne (cfg : CFG) (p : Nat) {s t : Nat} (h : t ≠ s) :
    (cfg.AddEdge p s).preds t = cfg.preds t := by
  unfold CFG.AddEdge CFG.preds
  cases hf : mfind? cfg.label2preds s with
  | some l => simp [mfind?_mset_ne _ _ h]
  | none => simp [mfind?_mset_ne _ _ h]

theorem predList_AddEdge_ne (cfg : CFG) (p : Nat) {s t : Nat} (h : t ≠ s) :
    (cfg.AddEdge p s).predList t = cfg.predList t := by
  unfold CFG.predList
  rw [preds_AddEdge_ne cfg p h]

theorem id2block_AddEdge (cfg : CFG) (p s : Nat) :
    (cfg.AddEdge p s).id2block = cfg.id2block := rfl

theorem RemoveEdge_of_no_entry {cfg : CFG} {p s : Nat}
    (h : cfg.preds s = none) : cfg.RemoveEdge p s = cfg := by
  unfold CFG.preds at h
  unfold CFG.RemoveEdge
  rw [h]

theorem predList_RemoveEdge_self (cfg : CFG) (p s : Nat) :
    (cfg.RemoveEdge p s).predList s = (cfg.predList s).erase p := by
  unfold CFG.RemoveEdge
  cases h : mfind? cfg.label2preds s with
  | none => simp [CFG.predList, CFG.preds, h]
  | some l => simp [CFG.predList, CFG.preds, h, mfind?_mset_self]

theorem preds_RemoveEdge_ne (cfg : CFG) (p : Nat) {s t : Nat} (h : t ≠ s) :
    (cfg.RemoveEdge p s).preds t = cfg.preds t := by
  unfold CFG.RemoveEdge
  cases hf : mfind? cfg.label2preds s with
  | none => rfl
  | some l => simp [CFG.preds, mfind?_mset_ne _ _ h]

theorem predList_RemoveEdge_ne (cfg : CFG) (p : Nat) {s t : Nat} (h : t ≠ s) :
    (cfg.RemoveEdge p s).predList t = cfg.predList t := by
  unfold CFG.predList
  rw [preds_RemoveEdge_ne cfg p h]

theorem id2block_RemoveEdge (cfg : CFG) (p s : Nat) :
    (cfg.RemoveEdge p s).id2block = cfg.id2block := by
  unfold CFG.RemoveEdge
  cases h : mfind? cfg.label2preds s with
  | none => rfl
  | some l => rfl

theorem preds_none_RemoveEdge {cfg : CFG} {k : Nat} (p s : Nat)
    (h : cfg.preds k = none) : (cfg.RemoveEdge p s).preds k = none := by
  by_cases hk : k = s
  · subst hk
    rw [RemoveEdge_of_no_entry h]
    exact h
  · rw [preds_RemoveEdge_ne cfg p hk]
    exact h

theorem preds_isSome_AddEdge {cfg : CFG} {k : Nat} (p s : Nat)
    (h : (cfg.preds k).isSome = true) : ((cfg.AddEdge p s).preds k).isSome = true := by
  by_cases hk : k = s
  · subst hk
    rw [preds_AddEdge_self]
    rfl
  · rw [preds_AddEdge_ne cfg p hk]
    exact h

theorem preds_isSome_RemoveEdge {cfg : CFG} {k : Nat} (p s : Nat)
    (h : (cfg.preds k).isSome = true) : ((cfg.RemoveEdge p s).preds k).isSome = true := by
  by_cases hk : k = s
  · subst hk
    unfold CFG.RemoveEdge
    cases hf : mfind? cfg.label2preds k with
    | none => exact h
    | some l => simp [CFG.preds, mfind?_mset_self]
  · rw [preds_RemoveEdge_ne cfg p hk]
    exact h

/-! ### Folded edge mutations -/

theorem removeFold_count_self (pid : Nat) :
    ∀ (L : List Nat) (cfg : CFG) (s : Nat),
      ((L.foldl (fun c l => c.RemoveEdge pid l) cfg).predList s).count pid =
        (cfg.predList s).count pid - L.count s := by
  intro L
  induction L with
  | nil => intro cfg s; simp
  | cons l L ih =>
    intro cfg s
    rw [List.foldl_cons, ih]
    by_cases hl : l = s
    · subst hl
      rw [predList_RemoveEdge_self, List.count_erase_self, List.count_cons_self,
        Nat.sub_sub, Nat.add_comm]
    · rw [predList_RemoveEdge_ne cfg pid (fun e => hl e.symm),
        List.count_cons_of_ne (fun e => hl e.symm)]

theorem removeFold_count_ne (pid q : Nat) (hq : q ≠ pid) :
    ∀ (L : List Nat) (cfg : CFG) (s : Nat),
      ((L.foldl (fun c l => c.RemoveEdge pid l) cfg).predList s).count q =
        (cfg.predList s).count q := by
  intro L
  induction L with
  | nil => intro cfg s; simp
  | cons l L ih =>
    intro cfg s
    rw [List.foldl_cons, ih]
    by_cases hl : l = s
    · subst hl
      rw [predList_RemoveEdge_self, List.count_erase_of_ne hq]
    · rw [predList_RemoveEdge_ne cfg pid (fun e => hl e.symm)]

theorem removeFold_predList_not_mem (pid : Nat) :
    ∀ (L : List Nat) (cfg : CFG) (s : Nat), s ∉ L →
      (L.foldl (fun c l => c.RemoveEdge pid l) cfg).predList s = cfg.predList s := by
  intro L
  induction L with
  | nil => intro cfg s _; rfl
  | cons l L ih =>
    intro cfg s hs
    have h1 : s ≠ l := fun e => hs (by rw [e]; exact List.mem_cons_self _ _)
    have h2 : s ∉ L := fun h => hs (List.mem_cons_of_mem _ h)
    rw [List.foldl_cons, ih _ _ h2, predList_RemoveEdge_ne cfg pid h1]

theorem removeFold_preds_none (pid : Nat) :
    ∀ (L : List Nat) (cfg : CFG) (k : Nat), cfg.preds k = none →
      (L.foldl (fun c l => c.RemoveEdge pid l) cfg).preds k = none := by
  intro L
  induction L with
  | nil => intro cfg k h; exact h
  | cons l L ih =>
    intro cfg k h
    rw [List.foldl_cons]
    exact ih _ _ (preds_none_RemoveEdge pid l h)

theorem removeFold_preds_isSome (pid : Nat) :
    ∀ (L : List Nat) (cfg : CFG) (k : Nat), (cfg.preds k).isSome = true →
      ((L.foldl (fun c l => c.RemoveEdge pid l) cfg).preds k).isSome = true := by
  intro L
  induction L with
  | nil => intro cfg k h; exact h
  | cons l L ih =>
    intro cfg k h
    rw [List.foldl_cons]
    exact ih _ _ (preds_isSome_RemoveEdge pid l h)

theorem removeFold_id2block (pid : Nat) :
    ∀ (L : List Nat) (cfg : CFG),
      (L.foldl (fun c l => c.RemoveEdge pid l) cfg).id2block = cfg.id2block := by
  intro L
  induction L with
  | nil => intro cfg; rfl
  | cons l L ih =>
    intro cfg
    rw [List.foldl_cons, ih, id2block_RemoveEdge]

theorem addFold_predList (pid : Nat) :
    ∀ (L : List Nat) (cfg : CFG) (s : Nat),
      (L.foldl (fun c l => c.AddEdge pid l) cfg).predList s =
        cfg.predList s ++ List.replicate (L.count s) pid := by
  intro L
  induction L with
  | nil => intro cfg s; simp
  | cons l L ih =>
    intro cfg s
    rw [List.foldl_cons, ih]
    by_cases hl : l = s
    · subst hl
      rw [predList_AddEdge_self, List.count_cons_self, List.replicate_succ,
        List.append_assoc]
      rfl
    · rw [predList_AddEdge_ne cfg pid (fun e => hl e.symm),
        List.count_cons_of_ne (fun e => hl e.symm)]

theorem addFold_preds_isSome (pid : Nat) :
    ∀ (L : List Nat) (cfg : CFG) (k : Nat), (cfg.preds k).isSome = true →
      ((L.foldl (fun c l => c.AddEdge pid l) cfg).preds k).isSome = true := by
  intro L
  induction L with
  | nil => intro cfg k h; exact h
  | cons l L ih =>
    intro cfg k h
    rw [List.foldl_cons]
    exact ih _ _ (preds_isSome_AddEdge pid l h)

theorem addFold_id2block (pid : Nat) :
    ∀ (L : List Nat) (cfg : CFG),
      (L.foldl (fun c l => c.AddEdge pid l) cfg).id2block = cfg.id2block := by
  intro L
  induction L with
  | nil => intro cfg; rfl
  | cons l L ih =>
    intro cfg
    rw [List.foldl_cons, ih, id2block_AddEdge]

/-! ### AddEdges, RegisterBlock and ForgetBlock characterizations -/

theorem AddEdges_predList (cfg : CFG) (b : BasicBlock) (s : Nat) :
    (cfg.AddEdges b).predList s =
      cfg.predList s ++ List.replicate (b.targets.count s) b.id := by
  unfold CFG.AddEdges
  cases h : mfind? cfg.label2preds b.id with
  | some l =>
    simp only [h]
    rw [addFold_predList]
  | none =>
    simp only [h]
    rw [addFold_predList]
    congr 1
    by_cases hs : s = b.id
    · subst hs
      simp [CFG.predList, CFG.preds, mfind?_mset_self, h]
    · simp [CFG.predList, CFG.preds, mfind?_mset_ne _ _ hs]

theorem AddEdges_preds_isSome_self (cfg : CFG) (b : BasicBlock) :
    ((cfg.AddEdges b).preds b.id).isSome = true := by
  unfold CFG.AddEdges
  cases h : mfind? cfg.label2preds b.id with
  | some l =>
    simp only [h]
    exact addFold_preds_isSome _ _ _ _ (by simp [CFG.preds, h])
  | none =>
    simp only [h]
    exact addFold_preds_isSome _ _ _ _ (by simp [CFG.preds, mfind?_mset_self])

theorem AddEdges_preds_isSome_mono (cfg : CFG) (b : BasicBlock) (k : Nat)
    (hk : (cfg.preds k).isSome = true) :
    ((cfg.AddEdges b).preds k).isSome = true := by
  unfold CFG.AddEdges
  cases h : mfind? cfg.label2preds b.id with
  | some l =>
    simp only [h]
    exact addFold_preds_isSome _ _ _ _ hk
  | none =>
    simp only [h]
    apply addFold_preds_isSome
    by_cases hkb : k = b.id
    · subst hkb
      simp [CFG.preds, mfind?_mset_self]
    · show (mfind? (mset cfg.label2preds b.id []) k).isSome = true
      rw [mfind?_mset_ne _ _ hkb]
      exact hk

theorem AddEdges_id2block (cfg : CFG) (b : BasicBlock) :
    (cfg.AddEdges b).id2block = cfg.id2block := by
  unfold CFG.AddEdges
  cases h : mfind? cfg.label2preds b.id with
  | some l =>
    simp only [h]
    rw [addFold_id2block]
  | none =>
    simp only [h]
    rw [addFold_id2block]

theorem Register_predList (cfg : CFG) (b : BasicBlock) (s : Nat) :
    (cfg.RegisterBlock b).predList s =
      cfg.predList s ++ List.replicate (b.targets.count s) b.id := by
  unfold CFG.RegisterBlock
  rw [AddEdges_predList]
  rfl

theorem Register_id2block_self (cfg : CFG) (b : BasicBlock) :
    mfind? (cfg.RegisterBlock b).id2block b.id = some b := by
  unfold CFG.RegisterBlock
  rw [AddEdges_id2block]
  exact mfind?_mset_self _ _ _

theorem Register_id2block_ne (cfg : CFG) (b : BasicBlock) {t : Nat}
    (ht : t ≠ b.id) :
    mfind? (cfg.RegisterBlock b).id2block t = mfind? cfg.id2block t := by
  unfold CFG.RegisterBlock
  rw [AddEdges_id2block]
  exact mfind?_mset_ne _ _ ht

theorem Register_preds_isSome_self (cfg : CFG) (b : BasicBlock) :
    ((cfg.RegisterBlock b).preds b.id).isSome = true :=
  AddEdges_preds_isSome_self _ b

theorem Register_preds_isSome_mono (cfg : CFG) (b : BasicBlock) (k : Nat)
    (hk : (cfg.preds k).isSome = true) :
    ((cfg.RegisterBlock b).preds k).isSome = true :=
  AddEdges_preds_isSome_mono _ b k hk

theorem Forget_id2block (cfg : CFG) (b : BasicBlock) :
    (cfg.ForgetBlock b).id2block = merase cfg.id2block b.id := by
  unfold CFG.ForgetBlock CFG.RemoveSuccessorEdges
  rw [removeFold_id2block]

theorem Forget_preds_self (cfg : CFG) (b : BasicBlock) :
    (cfg.ForgetBlock b).preds b.id = none := by
  unfold CFG.ForgetBlock CFG.RemoveSuccessorEdges
  apply removeFold_preds_none
  show mfind? (merase cfg.label2preds b.id) b.id = none
  exact mfind?_merase_self _ _

theorem Forget_count_self (cfg : CFG) (b : BasicBlock) {s : Nat} (hs : s ≠ b.id) :
    ((cfg.ForgetBlock b).predList s).count b.id =
      (cfg.predList s).count b.id - b.succLabels.count s := by
  unfold CFG.ForgetBlock CFG.RemoveSuccessorEdges
  rw [removeFold_count_self]
  congr 1
  simp [CFG.predList, CFG.preds, mfind?_merase_ne _ hs]

theorem Forget_count_ne (cfg : CFG) (b : BasicBlock) {s q : Nat} (hs : s ≠ b.id)
    (hq : q ≠ b.id) :
    ((cfg.ForgetBlock b).predList s).count q = (cfg.predList s).count q := by
  unfold CFG.ForgetBlock CFG.RemoveSuccessorEdges
  rw [removeFold_count_ne _ _ hq]
  simp [CFG.predList, CFG.preds, mfind?_merase_ne _ hs]

/-! ### Depth-first traversal: unfolding equations -/

theorem dfsChildren_nil (visit : Nat → List Nat → List Nat × List Nat)
    (seen : List Nat) : dfsChildren visit [] seen = (seen, []) := rfl

theorem dfsChildren_cons_mem (visit : Nat → List Nat → List Nat × List Nat)
    {v : Nat} {vs seen : List Nat} (h : v ∈ seen) :
    dfsChildren visit (v :: vs) seen = dfsChildren visit vs seen := by
  rw [dfsChildren, if_pos h]

theorem dfsChildren_cons_not_mem (visit : Nat → List Nat → List Nat × List Nat)
    {v : Nat} {vs seen : List Nat} (h : v ∉ seen) :
    dfsChildren visit (v :: vs) seen =
      ((dfsChildren visit vs (visit v seen).1).1,
        (visit v seen).2 ++ (dfsChildren visit vs (visit v seen).1).2) := by
  rw [dfsChildren, if_neg h]

theorem dfsVisit_zero (succs : Nat → List Nat) (u : Nat) (seen : List Nat) :
    dfsVisit succs 0 u seen = (seen, []) := rfl

theorem dfsVisit_succ (succs : Nat → List Nat) (fuel u : Nat) (seen : List Nat) :
    dfsVisit succs (fuel + 1) u seen =
      ((dfsChildren (dfsVisit succs fuel) (succs u) (u :: seen)).1,
        (dfsChildren (dfsVisit succs fuel) (succs u) (u :: seen)).2 ++ [u]) := rfl

/-! ### Depth-first traversal: seen-set growth and membership -/

theorem dfsChildren_sub (visit : Nat → List Nat → List Nat × List Nat)
    (hv : ∀ v s, s ⊆ (visit v s).1) :
    ∀ (vs s : List Nat), s ⊆ (dfsChildren visit vs s).1 := by
  intro vs
  induction vs with
  | nil => intro s; rw [dfsChildren_nil]; exact fun x hx => hx
  | cons v vs ih =>
    intro s
    by_cases hvs : v ∈ s
    · rw [dfsChildren_cons_mem visit hvs]
      exact ih s
    · rw [dfsChildren_cons_not_mem visit hvs]
      exact fun x hx => ih _ (hv v s hx)

theorem dfsVisit_sub (succs : Nat → List Nat) :
    ∀ (fuel : Nat) (u : Nat) (s : List Nat), s ⊆ (dfsVisit succs fuel u s).1 := by
  intro fuel
  induction fuel with
  | zero => intro u s; rw [dfsVisit_zero]; exact fun x hx => hx
  | succ fuel ih =>
    intro u s
    rw [dfsVisit_succ]
    exact fun x hx =>
      dfsChildren_sub (dfsVisit succs fuel) (ih) (succs u) (u :: s)
        (List.mem_cons_of_mem _ hx)

theorem dfsChildren_mem (visit : Nat → List Nat → List Nat × List Nat)
    (hv : ∀ v s x, x ∈ (visit v s).1 ↔ x ∈ (visit v s).2 ∨ x ∈ s) :
    ∀ (vs s : List Nat) (x : Nat),
      x ∈ (dfsChildren visit vs s).1 ↔ x ∈ (dfsChildren visit vs s).2 ∨ x ∈ s := by
  intro vs
  induction vs with
  | nil => intro s x; rw [dfsChildren_nil]; simp
  | cons v vs ih =>
    intro s x
    by_cases hvs : v ∈ s
    · rw [dfsChildren_cons_mem visit hvs]
      exact ih s x
    · rw [dfsChildren_cons_not_mem visit hvs]
      constructor
      · intro hx
        rcases (ih _ x).mp hx with h | h
        · exact Or.inl (List.mem_append_right _ h)
        · rcases (hv v s x).mp h with h' | h'
          · exact Or.inl (List.mem_append_left _ h')
          · exact Or.inr h'
      · intro hx
        rcases hx with h | h
        · rcases List.mem_append.mp h with h' | h'
          · exact (ih _ x).mpr (Or.inr ((hv v s x).mpr (Or.inl h')))
          · exact (ih _ x).mpr (Or.inl h')
        · exact (ih _ x).mpr (Or.inr ((hv v s x).mpr (Or.inr h)))

theorem dfsVisit_mem (succs : Nat → List Nat) :
    ∀ (fuel : Nat) (u : Nat) (s : List Nat) (x : Nat),
      x ∈ (dfsVisit succs fuel u s).1 ↔ x ∈ (dfsVisit succs fuel u s).2 ∨ x ∈ s := by
  intro fuel
  induction fuel with
  | zero => intro u s x; rw [dfsVisit_zero]; simp
  | succ fuel ih =>
    intro u s x
    rw [dfsVisit_succ]
    have h := dfsChildren_mem (dfsVisit succs fuel) (fun v s x => ih v s x)
      (succs u) (u :: s) x
    simp only [List.mem_append, List.mem_cons, List.mem_singleton] at h ⊢
    tauto

/-! ### Depth-first traversal: each block is emitted at most once -/

theorem dfsChildren_nodup (visit : Nat → List Nat → List Nat × List Nat)
    (hsub : ∀ v s, s ⊆ (visit v s).1)
    (hmem : ∀ v s x, x ∈ (visit v s).1 ↔ x ∈ (visit v s).2 ∨ x ∈ s)
    (hnd : ∀ v s, v ∉ s → (visit v s).2.Nodup ∧ ∀ x ∈ (visit v s).2, x ∉ s) :
    ∀ (vs s : List Nat),
      (dfsChildren visit vs s).2.Nodup ∧ ∀ x ∈ (dfsChildren visit vs s).2, x ∉ s := by
  intro vs
  induction vs with
  | nil => intro s; rw [dfsChildren_nil]; simp
  | cons v vs ih =>
    intro s
    by_cases hvs : v ∈ s
    · rw [dfsChildren_cons_mem visit hvs]
      exact ih s
    · rw [dfsChildren_cons_not_mem visit hvs]
      obtain ⟨nd1, disj1⟩ := hnd v s hvs
      obtain ⟨nd2, disj2⟩ := ih (visit v s).1
      constructor
      · refine List.Nodup.append nd1 nd2 ?_
        intro x hx1 hx2
        exact disj2 x hx2 ((hmem v s x).mpr (Or.inl hx1))
      · intro x hx
        rcases List.mem_append.mp hx with h | h
        · exact disj1 x h
        · exact fun hxs => disj2 x h (hsub v s hxs)

theorem dfsVisit_nodup (succs : Nat → List Nat) :
    ∀ (fuel : Nat) (u : Nat) (s : List Nat), u ∉ s →
      (dfsVisit succs fuel u s).2.Nodup ∧ ∀ x ∈ (dfsVisit succs fuel u s).2, x ∉ s := by
  intro fuel
  induction fuel with
  | zero => intro u s _; rw [dfsVisit_zero]; simp
  | succ fuel ih =>
    intro u s hu
    rw [dfsVisit_succ]
    obtain ⟨ndr, disjr⟩ := dfsChildren_nodup (dfsVisit succs fuel)
      (dfsVisit_sub succs fuel) (dfsVisit_mem succs fuel)
      (fun v s hv => ih v s hv) (succs u) (u :: s)
    constructor
    · refine List.Nodup.append ndr (List.nodup_singleton u) ?_
      intro x hx1 hx2
      rw [List.mem_singleton] at hx2
      exact disjr x hx1 (hx2 ▸ List.mem_cons_self _ _)
    · intro x hx
      rcases List.mem_append.mp hx with h | h
      · exact fun hxs => disjr x h (List.mem_cons_of_mem _ hxs)
      · rw [List.mem_singleton] at h
        exact h ▸ hu

/-! ### Depth-first traversal: soundness with respect to reachability -/

theorem Reach.from_succ {succs : Nat → List Nat} {u w x : Nat}
    (hw : w ∈ succs u) (hx : Reach succs w x) : Reach succs u x := by
  induction hx with
  | refl => exact Reach.step Reach.refl hw
  | step hv hsucc ih => exact Reach.step ih hsucc

theorem dfsChildren_sound (succs : Nat → List Nat)
    (visit : Nat → List Nat → List Nat × List Nat)
    (hv : ∀ v s x, x ∈ (visit v s).2 → Reach succs v x) :
    ∀ (vs s : List Nat) (x : Nat), x ∈ (dfsChildren visit vs s).2 →
      ∃ v ∈ vs, Reach succs v x := by
  intro vs
  induction vs with
  | nil => intro s x hx; rw [dfsChildren_nil] at hx; simp at hx
  | cons v vs ih =>
    intro s x hx
    by_cases hvs : v ∈ s
    · rw [dfsChildren_cons_mem visit hvs] at hx
      obtain ⟨w, hw, hr⟩ := ih s x hx
      exact ⟨w, List.mem_cons_of_mem _ hw, hr⟩
    · rw [dfsChildren_cons_not_mem visit hvs] at hx
      rcases List.mem_append.mp hx with h | h
      · exact ⟨v, List.mem_cons_self _ _, hv v s x h⟩
      · obtain ⟨w, hw, hr⟩ := ih _ x h
        exact ⟨w, List.mem_cons_of_mem _ hw, hr⟩

theorem dfsVisit_sound (succs : Nat → List Nat) :
    ∀ (fuel : Nat) (u : Nat) (s : List Nat) (x : Nat),
      x ∈ (dfsVisit succs fuel u s).2 → Reach succs u x := by
  intro fuel
  induction fuel with
  | zero => intro u s x hx; rw [dfsVisit_zero] at hx; simp at hx
  | succ fuel ih =>
    intro u s x hx
    rw [dfsVisit_succ] at hx
    rcases List.mem_append.mp hx with h | h
    · obtain ⟨w, hw, hr⟩ := dfsChildren_sound succs (dfsVisit succs fuel)
        (fun v s x => ih v s x) (succs u) (u :: s) x h
      exact Reach.from_succ hw hr
    · rw [List.mem_singleton] at h
      exact h ▸ Reach.refl

/-! ### Depth-first traversal: completeness via a finite universe -/

theorem card_filter_cons_lt (U : Finset Nat) {u : Nat} {s : List Nat}
    (hu : u ∈ U) (hus : u ∉ s) :
    (U.filter (fun y => y ∉ u :: s)).card < (U.filter (fun y => y ∉ s)).card := by
  have hsub : U.filter (fun y => y ∉ u :: s) ⊆ U.filter (fun y => y ∉ s) := by
    intro y hy
    obtain ⟨hyU, hyn⟩ := Finset.mem_filter.mp hy
    exact Finset.mem_filter.mpr ⟨hyU, fun h => hyn (List.mem_cons_of_mem _ h)⟩
  apply Finset.card_lt_card
  refine (Finset.ssubset_iff_of_subset hsub).mpr ?_
  refine ⟨u, Finset.mem_filter.mpr ⟨hu, hus⟩, ?_⟩
  intro hc
  exact (Finset.mem_filter.mp hc).2 (List.mem_cons_self _ _)

theorem card_filter_anti (U : Finset Nat) {s s' : List Nat} (h : s ⊆ s') :
    (U.filter (fun y => y ∉ s')).card ≤ (U.filter (fun y => y ∉ s)).card := by
  apply Finset.card_le_card
  intro y hy
  obtain ⟨hyU, hyn⟩ := Finset.mem_filter.mp hy
  exact Finset.mem_filter.mpr ⟨hyU, fun hm => hyn (h hm)⟩

theorem dfsChildren_closed (succs : Nat → List Nat) (U : Finset Nat)
    (fuel : Nat) (visit : Nat → List Nat → List Nat × List Nat)
    (hsub : ∀ v s, s ⊆ (visit v s).1)
    (hv : ∀ v s, v ∈ U → v ∉ s → (U.filter (fun y => y ∉ s)).card ≤ fuel →
        v ∈ (visit v s).1 ∧
        ∀ x ∈ (visit v s).1, x ∉ s → ∀ w ∈ succs x, w ∈ (visit v s).1) :
    ∀ (vs s : List Nat), (∀ v ∈ vs, v ∈ U) →
      (U.filter (fun y => y ∉ s)).card ≤ fuel →
      (∀ v ∈ vs, v ∈ (dfsChildren visit vs s).1) ∧
      ∀ x ∈ (dfsChildren visit vs s).1, x ∉ s →
        ∀ w ∈ succs x, w ∈ (dfsChildren visit vs s).1 := by
  intro vs
  induction vs with
  | nil =>
    intro s _ _
    rw [dfsChildren_nil]
    exact ⟨by simp, fun x hx hxn => absurd hx hxn⟩
  | cons v vs ih =>
    intro s hvsU hcard
    by_cases hvs : v ∈ s
    · rw [dfsChildren_cons_mem visit hvs]
      obtain ⟨hall, hclosure⟩ := ih s (fun w hw => hvsU w (List.mem_cons_of_mem _ hw)) hcard
      refine ⟨?_, hclosure⟩
      intro w hw
      rcases List.mem_cons.mp hw with h | h
      · exact dfsChildren_sub visit hsub vs s (h ▸ hvs)
      · exact hall w h
    · rw [dfsChildren_cons_not_mem visit hvs]
      have hvU : v ∈ U := hvsU v (List.mem_cons_self _ _)
      obtain ⟨hv1, hclosure1⟩ := hv v s hvU hvs hcard
      have hcard1 : (U.filter (fun y => y ∉ (visit v s).1)).card ≤ fuel := by
        have h1 : (v :: s) ⊆ (visit v s).1 := by
          intro y hy
          rcases List.mem_cons.mp hy with h | h
          · exact h ▸ hv1
          · exact hsub v s h
        have h2 := card_filter_anti U h1
        have h3 := card_filter_cons_lt U hvU hvs
        omega
      obtain ⟨hall2, hclosure2⟩ := ih (visit v s).1
        (fun w hw => hvsU w (List.mem_cons_of_mem _ hw)) hcard1
      constructor
      · intro w hw
        rcases List.mem_cons.mp hw with h | h
        · exact dfsChildren_sub visit hsub vs (visit v s).1 (h ▸ hv1)
        · exact hall2 w h
      · intro x hx hxs w hw
        by_cases hx1 : x ∈ (visit v s).1
        · exact dfsChildren_sub visit hsub vs (visit v s).1 (hclosure1 x hx1 hxs w hw)
        · exact hclosure2 x hx hx1 w hw

theorem dfsVisit_closed (succs : Nat → List Nat) (U : Finset Nat)
    (hU : ∀ v, ∀ w ∈ succs v, w ∈ U) :
    ∀ (fuel : Nat) (u : Nat) (s : List Nat), u ∈ U → u ∉ s →
      (U.filter (fun y => y ∉ s)).card ≤ fuel →
      u ∈ (dfsVisit succs fuel u s).1 ∧
      ∀ x ∈ (dfsVisit succs fuel u s).1, x ∉ s →
        ∀ w ∈ succs x, w ∈ (dfsVisit succs fuel u s).1 := by
  intro fuel
  induction fuel with
  | zero =>
    intro u s hu hus hcard
    exfalso
    have hm : u ∈ U.filter (fun y => y ∉ s) := Finset.mem_filter.mpr ⟨hu, hus⟩
    have hp : 0 < (U.filter (fun y => y ∉ s)).card := Finset.card_pos.mpr ⟨u, hm⟩
    omega
  | succ fuel ih =>
    intro u s hu hus hcard
    rw [dfsVisit_succ]
    have hcard' : (U.filter (fun y => y ∉ u :: s)).card ≤ fuel := by
      have := card_filter_cons_lt U hu hus
      omega
    obtain ⟨hall, hclosure⟩ := dfsChildren_closed succs U fuel (dfsVisit succs fuel)
      (dfsVisit_sub succs fuel)
      (fun v s hv hvs hc => ih v s hv hvs hc)
      (succs u) (u :: s) (hU u) hcard'
    constructor
    · exact dfsChildren_sub (dfsVisit succs fuel) (dfsVisit_sub succs fuel) _ _
        (List.mem_cons_self _ _)
    · intro x hx hxs w hw
      by_cases hxu : x = u
      · exact hall w (hxu ▸ hw)
      · exact hclosure x hx (fun h => (List.mem_cons.mp h).elim hxu hxs) w hw

/-! ### Traversal universe -/

theorem succLabelUnion_cons (kv : Nat × BasicBlock) (m : List (Nat × BasicBlock)) :
    succLabelUnion (kv :: m) = kv.2.succLabels.toFinset ∪ succLabelUnion m := rfl

theorem mem_succLabelUnion {m : List (Nat × BasicBlock)} {kv : Nat × BasicBlock}
    (hm : kv ∈ m) {w : Nat} (hw : w ∈ kv.2.succLabels) : w ∈ succLabelUnion m := by
  induction m with
  | nil => simp at hm
  | cons hd rest ih =>
    rw [succLabelUnion_cons]
    rcases List.mem_cons.mp hm with h | h
    · exact Finset.mem_union_left _ (List.mem_toFinset.mpr (h ▸ hw))
    · exact Finset.mem_union_right _ (ih h)

theorem cfgSuccs_mem_universe (cfg : CFG) (start : Nat) :
    ∀ v, ∀ w ∈ cfgSuccs cfg v, w ∈ cfgUniverse cfg start := by
  intro v w hw
  unfold cfgSuccs at hw
  cases h : mfind? cfg.id2block v with
  | none => rw [h] at hw; simp at hw
  | some b =>
    rw [h] at hw
    exact Finset.mem_insert_of_mem (mem_succLabelUnion (mfind?_mem h) hw)

/-- Characterization of the modelled post-order traversal: no block is
delivered twice, and the delivered blocks are exactly those reachable from
the start block over real successor edges. -/
theorem postorder_spec (cfg : CFG) (start : Nat) :
    (cfg.ForEachBlockInPostOrder start).Nodup ∧
    ∀ x, x ∈ cfg.ForEachBlockInPostOrder start ↔ Reach (cfgSuccs cfg) start x := by
  constructor
  · exact (dfsVisit_nodup (cfgSuccs cfg) (cfgUniverse cfg start).card start []
      (by simp)).1
  · intro x
    constructor
    · exact dfsVisit_sound (cfgSuccs cfg) (cfgUniverse cfg start).card start [] x
    · intro hr
      have hU := cfgSuccs_mem_universe cfg start
      have hstart : start ∈ cfgUniverse cfg start := Finset.mem_insert_self _ _
      have hfil : (cfgUniverse cfg start).filter (fun y => y ∉ ([] : List Nat)) =
          cfgUniverse cfg start :=
        Finset.filter_true_of_mem (fun x _ => by simp)
      have hcard : ((cfgUniverse cfg start).filter
          (fun y => y ∉ ([] : List Nat))).card ≤ (cfgUniverse cfg start).card := by
        rw [hfil]
      obtain ⟨hs, hcl⟩ := dfsVisit_closed (cfgSuccs cfg) (cfgUniverse cfg start) hU
        (cfgUniverse cfg start).card start [] hstart (by simp) hcard
      have hseen : x ∈ (dfsVisit (cfgSuccs cfg)
          (cfgUniverse cfg start).card start []).1 := by
        induction hr with
        | refl => exact hs
        | step hv hsucc ih => exact hcl _ ih (by simp) _ hsucc
      have hm := (dfsVisit_mem (cfgSuccs cfg)
        (cfgUniverse cfg start).card start [] x).mp hseen
      simpa [CFG.ForEachBlockInPostOrder] using hm

/-! ### Registration invariant support -/

theorem mem_merase {α : Type} {m : List (Nat × α)} {k : Nat} {kv : Nat × α}
    (h : kv ∈ merase m k) : kv ∈ m ∧ kv.1 ≠ k := by
  unfold merase at h
  have hm := List.mem_filter.mp h
  exact ⟨hm.1, by simpa using hm.2⟩

theorem Forget_preds_isSome_ne (cfg : CFG) (b : BasicBlock) {k : Nat}
    (hk : k ≠ b.id) (h : (cfg.preds k).isSome = true) :
    ((cfg.ForgetBlock b).preds k).isSome = true := by
  unfold CFG.ForgetBlock CFG.RemoveSuccessorEdges
  apply removeFold_preds_isSome
  show (mfind? (merase cfg.label2preds b.id) k).isSome = true
  rw [mfind?_merase_ne _ hk]
  exact h

theorem RegInv_RegisterBlock {cfg : CFG} (h : RegInv cfg) (b : BasicBlock) :
    RegInv (cfg.RegisterBlock b) := by
  intro kv hkv
  have hid : (cfg.RegisterBlock b).id2block = mset cfg.id2block b.id b := by
    unfold CFG.RegisterBlock
    rw [AddEdges_id2block]
  rw [hid] at hkv
  rcases mem_mset hkv with hkv | hkv
  · have := Register_preds_isSome_self cfg b
    rw [hkv]
    exact this
  · exact Register_preds_isSome_mono cfg b kv.1 (h kv hkv)

theorem RegInv_ForgetBlock {cfg : CFG} (h : RegInv cfg) (b : BasicBlock) :
    RegInv (cfg.ForgetBlock b) := by
  intro kv hkv
  rw [Forget_id2block] at hkv
  obtain ⟨hmem, hne⟩ := mem_merase hkv
  exact Forget_preds_isSome_ne cfg b hne (h kv hmem)

theorem RegInv_AddEdge {cfg : CFG} (h : RegInv cfg) (p s : Nat) :
    RegInv (cfg.AddEdge p s) := by
  intro kv hkv
  rw [id2block_AddEdge] at hkv
  exact preds_isSome_AddEdge p s (h kv hkv)

theorem RegInv_RemoveEdge {cfg : CFG} (h : RegInv cfg) (p s : Nat) :
    RegInv (cfg.RemoveEdge p s) := by
  intro kv hkv
  rw [id2block_RemoveEdge] at hkv
  exact preds_isSome_RemoveEdge p s (h kv hkv)

theorem RegInv_preds_isSome {cfg : CFG} (h : RegInv cfg) {id : Nat}
    {b : BasicBlock} (hid : mfind? cfg.id2block id = some b) :
    ∃ l, cfg.preds id = some l := by
  have := h (id, b) (mfind?_mem hid)
  cases hp : cfg.preds id with
  | none =>
    unfold CFG.preds at hp
    rw [hp] at this
    simp at this
  | some l => exact ⟨l, rfl⟩

/-! ### Constructor phase lemmas -/

theorem buildCFG_eq (blocks : List BasicBlock) :
    buildCFG blocks =
      blocks.foldl
        (fun c b => if b.succLabels = [] then c.AddEdge b.id pseudoExitId else c)
        (blocks.foldl
          (fun c b => if c.predList b.id = [] then c.AddEdge pseudoEntryId b.id else c)
          (blocks.foldl CFG.RegisterBlock CFG.empty)) := rfl

theorem registerFold_predList_untargeted :
    ∀ (blocks : List BasicBlock) (cfg : CFG) (x : Nat),
      (∀ b ∈ blocks, x ∉ b.targets) →
      (blocks.foldl CFG.RegisterBlock cfg).predList x = cfg.predList x := by
  intro blocks
  induction blocks with
  | nil => intro cfg x _; rfl
  | cons b blocks ih =>
    intro cfg x hx
    rw [List.foldl_cons, ih _ _ (fun c hc => hx c (List.mem_cons_of_mem _ hc)),
      Register_predList]
    have : b.targets.count x = 0 :=
      List.count_eq_zero.mpr (hx b (List.mem_cons_self _ _))
    rw [this]
    simp

theorem entryFold_predList_not_mem :
    ∀ (blocks : List BasicBlock) (cfg : CFG) (x : Nat),
      x ∉ blocks.map BasicBlock.id →
      (blocks.foldl
        (fun c b => if c.predList b.id = [] then c.AddEdge pseudoEntryId b.id else c)
        cfg).predList x = cfg.predList x := by
  intro blocks
  induction blocks with
  | nil => intro cfg x _; rfl
  | cons b blocks ih =>
    intro cfg x hx
    have hxb : x ≠ b.id := by
      intro e
      exact hx (by rw [List.map_cons]; exact e ▸ List.mem_cons_self _ _)
    have hxrest : x ∉ blocks.map BasicBlock.id := by
      intro h
      exact hx (by rw [List.map_cons]; exact List.mem_cons_of_mem _ h)
    rw [List.foldl_cons, ih _ _ hxrest]
    by_cases hc : cfg.predList b.id = []
    · rw [if_pos hc, predList_AddEdge_ne cfg pseudoEntryId hxb]
    · rw [if_neg hc]

theorem entryFold_predList_self :
    ∀ (blocks : List BasicBlock) (cfg : CFG) (b : BasicBlock),
      (blocks.map BasicBlock.id).Nodup → b ∈ blocks →
      (blocks.foldl
        (fun c b => if c.predList b.id = [] then c.AddEdge pseudoEntryId b.id else c)
        cfg).predList b.id =
        cfg.predList b.id ++
          (if cfg.predList b.id = [] then [pseudoEntryId] else []) := by
  intro blocks
  induction blocks with
  | nil => intro cfg b _ hb; simp at hb
  | cons hd blocks ih =>
    intro cfg b hnd hb
    have hndrest : (blocks.map BasicBlock.id).Nodup := by
      rw [List.map_cons] at hnd
      exact hnd.of_cons
    have hhd : hd.id ∉ blocks.map BasicBlock.id := by
      rw [List.map_cons] at hnd
      exact (List.nodup_cons.mp hnd).1
    rcases List.mem_cons.mp hb with hbe | hbm
    · subst hbe
      rw [List.foldl_cons]
      by_cases hc : cfg.predList b.id = []
      · rw [if_pos hc, entryFold_predList_not_mem blocks _ _ hhd,
          predList_AddEdge_self, hc]
        simp
      · rw [if_neg hc, entryFold_predList_not_mem blocks _ _ hhd]
        simp [hc]
    · have hne : b.id ≠ hd.id := by
        intro e
        apply hhd
        rw [← e]
        exact List.mem_map_of_mem BasicBlock.id hbm
      rw [List.foldl_cons]
      by_cases hc : cfg.predList hd.id = []
      · rw [if_pos hc, ih _ _ hndrest hbm, predList_AddEdge_ne cfg pseudoEntryId hne]
      · rw [if_neg hc, ih _ _ hndrest hbm]

theorem exitFold_predList_ne :
    ∀ (blocks : List BasicBlock) (cfg : CFG) (x : Nat), x ≠ pseudoExitId →
      (blocks.foldl
        (fun c b => if b.succLabels = [] then c.AddEdge b.id pseudoExitId else c)
        cfg).predList x = cfg.predList x := by
  intro blocks
  induction blocks with
  | nil => intro cfg x _; rfl
  | cons b blocks ih =>
    intro cfg x hx
    rw [List.foldl_cons, ih _ _ hx]
    by_cases hc : b.succLabels = []
    · rw [if_pos hc, predList_AddEdge_ne cfg b.id hx]
    · rw [if_neg hc]

theorem exitFold_count_not_mem :
    ∀ (blocks : List BasicBlock) (cfg : CFG) (x : Nat),
      x ∉ blocks.map BasicBlock.id →
      ((blocks.foldl
        (fun c b => if b.succLabels = [] then c.AddEdge b.id pseudoExitId else c)
        cfg).predList pseudoExitId).count x =
        (cfg.predList pseudoExitId).count x := by
  intro blocks
  induction blocks with
  | nil => intro cfg x _; rfl
  | cons b blocks ih =>
    intro cfg x hx
    have hxb : x ≠ b.id := by
      intro e
      exact hx (by rw [List.map_cons]; exact e ▸ List.mem_cons_self _ _)
    have hxrest : x ∉ blocks.map BasicBlock.id := by
      intro h
      exact hx (by rw [List.map_cons]; exact List.mem_cons_of_mem _ h)
    rw [List.foldl_cons, ih _ _ hxrest]
    by_cases hc : b.succLabels = []
    · rw [if_pos hc, predList_AddEdge_self]
      rw [List.count_append]
      simp [hxb]
    · rw [if_neg hc]

theorem exitFold_count_self :
    ∀ (blocks : List BasicBlock) (cfg : CFG) (b : BasicBlock),
      (blocks.map BasicBlock.id).Nodup → b ∈ blocks → b.succLabels = [] →
      ((cfg.predList pseudoExitId).count b.id = 0) →
      ((blocks.foldl
        (fun c b => if b.succLabels = [] then c.AddEdge b.id pseudoExitId else c)
        cfg).predList pseudoExitId).count b.id = 1 := by
  intro blocks
  induction blocks with
  | nil => intro cfg b _ hb; simp at hb
  | cons hd blocks ih =>
    intro cfg b hnd hb hsucc h0
    have hndrest : (blocks.map BasicBlock.id).Nodup := by
      rw [List.map_cons] at hnd
      exact hnd.of_cons
    have hhd : hd.id ∉ blocks.map BasicBlock.id := by
      rw [List.map_cons] at hnd
      exact (List.nodup_cons.mp hnd).1
    rcases List.mem_cons.mp hb with hbe | hbm
    · subst hbe
      rw [List.foldl_cons, if_pos hsucc,
        exitFold_count_not_mem blocks _ _ hhd, predList_AddEdge_self,
        List.count_append, h0]
      simp
    · have hne : b.id ≠ hd.id := by
        intro e
        apply hhd
        rw [← e]
        exact List.mem_map_of_mem BasicBlock.id hbm
      rw [List.foldl_cons]
      by_cases hc : hd.succLabels = []
      · rw [if_pos hc]
        apply ih _ _ hndrest hbm hsucc
        rw [predList_AddEdge_self, List.count_append]
        simp [hne, h0]
      · rw [if_neg hc]
        exact ih _ _ hndrest hbm hsucc h0

/-! ### Claim theorems -/

/-- C1 counterexample: block 2's terminator targets only 3, and it declares
merge block 4, so registration recorded 2 as a predecessor of 4; after
ForgetBlock(2) the remaining registered block 4 still shows 2 in its
predecessor list, so ForgetBlock does not remove every edge of the
forgotten block from every successor's predecessor list. -/
theorem forgetBlock_leaves_merge_edge_counterexample :
    (mergeCFG.ForgetBlock headerBlock2).preds 4 = some [2] ∧
    mfind? (mergeCFG.ForgetBlock headerBlock2).id2block 4 = some exitBlock4 ∧
    mfind? (mergeCFG.ForgetBlock headerBlock2).id2block 2 = none := by decide

/-- C1 (amended): ForgetBlock(b) removes b's identity-map entry and b's own
predecessor-list entry, and removes from each label's predecessor list one
occurrence of b per occurrence of that label among b's terminator's
successor labels; consequently on any remaining block in whose predecessor
list b occurred at most as often as b's terminator targets it — in
particular any block not targeted by b's merge/continue declarations in a
registration-built CFG — no preds query shows b afterwards. -/
theorem forgetBlock_removes_terminator_edges (cfg : CFG) (b : BasicBlock) :
    mfind? (cfg.ForgetBlock b).id2block b.id = none ∧
    (cfg.ForgetBlock b).preds b.id = none ∧
    ∀ s, s ≠ b.id → (cfg.predList s).count b.id ≤ b.succLabels.count s →
      b.id ∉ (cfg.ForgetBlock b).predList s := by
  refine ⟨?_, Forget_preds_self cfg b, ?_⟩
  · rw [Forget_id2block]
    exact mfind?_merase_self _ _
  · intro s hs hle
    have h := Forget_count_self cfg b hs
    rw [Nat.sub_eq_zero_of_le hle] at h
    exact List.count_eq_zero.mp h

/-- C1 witness: forgetting block 5 (terminator target 6, no merge/continue)
from the two-block chain leaves block 6's predecessor list without 5. -/
theorem forgetBlock_removes_terminator_edges_witness :
    ((6 : Nat) ≠ branchBlock5.id ∧
      (chainCFG.predList 6).count branchBlock5.id ≤
        branchBlock5.succLabels.count 6) ∧
    branchBlock5.id ∉ (chainCFG.ForgetBlock branchBlock5).predList 6 :=
  ⟨⟨by decide, by decide⟩,
    (forgetBlock_removes_terminator_edges chainCFG branchBlock5).2.2 6
      (by decide) (by decide)⟩

/-- C10: on any other block's predecessor list, ForgetBlock(b) lowers the
count of b exactly by the number of times b's terminator names that label
(truncated at the stored count) and leaves the count of every other
predecessor unchanged; occurrences of b that arose from a merge or continue
declaration rather than from the terminator are therefore left in place. -/
theorem forgetBlock_frame (cfg : CFG) (b : BasicBlock) {s : Nat}
    (hs : s ≠ b.id) :
    ((cfg.ForgetBlock b).predList s).count b.id =
      (cfg.predList s).count b.id - b.succLabels.count s ∧
    ∀ q, q ≠ b.id →
      ((cfg.ForgetBlock b).predList s).count q = (cfg.predList s).count q :=
  ⟨Forget_count_self cfg b hs, fun _ hq => Forget_count_ne cfg b hs hq⟩

/-- C10 witness: block 2 declared merge block 4 but its terminator does not
target 4, so after ForgetBlock(2) the count of 2 in block 4's predecessor
list is unchanged (1 − 0 = 1). -/
theorem forgetBlock_frame_witness :
    ((4 : Nat) ≠ headerBlock2.id) ∧
    ((mergeCFG.ForgetBlock headerBlock2).predList 4).count headerBlock2.id =
      (mergeCFG.predList 4).count headerBlock2.id -
        headerBlock2.succLabels.count 4 :=
  ⟨by decide, (forgetBlock_frame mergeCFG headerBlock2 (by decide)).1⟩

/-- C3: RegisterBlock(b) maps b's id to b in the identity map and appends one
predecessor edge b→s per occurrence of s among the labels b's terminator or
merge/continue declaration names; hence b appears afterwards in the
predecessor list of every such target. -/
theorem registerBlock_adds_edges (cfg : CFG) (b : BasicBlock) :
    mfind? (cfg.RegisterBlock b).id2block b.id = some b ∧
    (∀ s, ((cfg.RegisterBlock b).predList s).count b.id =
      (cfg.predList s).count b.id + b.targets.count s) ∧
    ∀ s, s ∈ b.targets → b.id ∈ (cfg.RegisterBlock b).predList s := by
  have hcount : ∀ s, ((cfg.RegisterBlock b).predList s).count b.id =
      (cfg.predList s).count b.id + b.targets.count s := by
    intro s
    rw [Register_predList, List.count_append, List.count_replicate_self]
  refine ⟨Register_id2block_self cfg b, hcount, ?_⟩
  intro s hmem
  apply List.count_pos_iff.mp
  rw [hcount s]
  have : 0 < b.targets.count s := List.count_pos_iff.mpr hmem
  omega

/-- C3 witness: registering block 2 (branch target 3, merge 4) makes 2 a
recorded predecessor of its merge target 4. -/
theorem registerBlock_adds_edges_witness :
    (4 ∈ headerBlock2.targets) ∧
    headerBlock2.id ∈ (CFG.empty.RegisterBlock headerBlock2).predList 4 :=
  ⟨by decide, (registerBlock_adds_edges CFG.empty headerBlock2).2.2 4 (by decide)⟩

/-- C4: AddEdge(p, s) appends p at the end of s's predecessor list (insertion
order kept, duplicates allowed), and RemoveEdge(p, s) removes exactly the
first occurrence of p, leaving everything before it and every duplicate
after it in place. -/
theorem addEdge_removeEdge_multiplicity (cfg : CFG) (p s : Nat) :
    (cfg.AddEdge p s).predList s = cfg.predList s ++ [p] ∧
    ∀ l1 l2 : List Nat, cfg.predList s = l1 ++ p :: l2 → p ∉ l1 →
      (cfg.RemoveEdge p s).predList s = l1 ++ l2 := by
  refine ⟨predList_AddEdge_self cfg p s, ?_⟩
  intro l1 l2 heq hnp
  rw [predList_RemoveEdge_self, heq, List.erase_append_right _ hnp,
    List.erase_cons_head]

/-- C4 witness: with stored predecessor list [2, 3, 3] for block 7, AddEdge
appends at the end, and RemoveEdge(3, 7) deletes only the first 3, keeping
the leading 2 and the duplicate 3. -/
theorem addEdge_removeEdge_multiplicity_witness :
    (dupPredCFG.predList 7 = [2] ++ 3 :: [3] ∧ (3 : Nat) ∉ [2]) ∧
    (dupPredCFG.AddEdge 3 7).predList 7 = dupPredCFG.predList 7 ++ [3] ∧
    (dupPredCFG.RemoveEdge 3 7).predList 7 = [2] ++ [3] :=
  ⟨⟨by decide, by decide⟩,
    (addEdge_removeEdge_multiplicity dupPredCFG 3 7).1,
    (addEdge_removeEdge_multiplicity dupPredCFG 3 7).2 [2] [3]
      (by decide) (by decide)⟩

/-- C2 counterexample: a single AddEdge naming block 2 as successor creates
a predecessor entry for 2 although 2 was never registered (the identity map
is empty), so a preds query on the never-registered id 2 succeeds instead of
failing. -/
theorem preds_succeeds_unregistered_counterexample :
    (CFG.empty.AddEdge 1 2).preds 2 = some [1] ∧
    (CFG.empty.AddEdge 1 2).id2block = [] := by decide

/-- C2 (amended): every registered id owns a predecessor entry, so preds
succeeds on it with its ordered (possibly empty) predecessor list; this
invariant holds of the empty CFG and is preserved by every mutation
primitive.  preds fails exactly on ids without an entry; since registration
and edge addition also create entries for successor ids that were never
registered themselves, failure is guaranteed only for ids never named at
all, not for every unregistered id. -/
theorem preds_registered_succeeds (cfg : CFG) (h : RegInv cfg) :
    (∀ b, RegInv (cfg.RegisterBlock b)) ∧
    (∀ b, RegInv (cfg.ForgetBlock b)) ∧
    (∀ p s, RegInv (cfg.AddEdge p s)) ∧
    (∀ p s, RegInv (cfg.RemoveEdge p s)) ∧
    (∀ id b, mfind? cfg.id2block id = some b → ∃ l, cfg.preds id = some l) ∧
    RegInv CFG.empty := by
  refine ⟨fun b => RegInv_RegisterBlock h b, fun b => RegInv_ForgetBlock h b,
    fun p s => RegInv_AddEdge h p s, fun p s => RegInv_RemoveEdge h p s,
    fun _ _ hid => RegInv_preds_isSome h hid, ?_⟩
  intro kv hkv
  simp [CFG.empty] at hkv

/-- C2 witness: the chain CFG satisfies the registration invariant and its
registered block 5 answers a preds query. -/
theorem preds_registered_succeeds_witness :
    RegInv chainCFG ∧ ∃ l, chainCFG.preds 5 = some l :=
  ⟨by decide,
    (preds_registered_succeeds chainCFG (by decide)).2.2.2.2.1 5 branchBlock5
      (by decide)⟩

/-- C9 counterexample: RemoveEdge naming two ids of which nothing is
registered returns the CFG unchanged — a silent no-op — and AddEdge naming
an unregistered successor silently creates its entry; neither operation
fails. -/
theorem edge_mutation_no_assert_counterexample :
    CFG.empty.RemoveEdge 1 2 = CFG.empty ∧
    (CFG.empty.AddEdge 1 2).preds 2 = some [1] ∧
    CFG.empty.id2block = [] := by decide

/-- C9 (amended): AddEdge and RemoveEdge perform no registration check and
never fail: on a successor id without a predecessor entry RemoveEdge returns
the CFG unchanged and AddEdge creates the entry holding exactly the new
predecessor; only preds guards its precondition with an assertion. -/
theorem edge_mutation_total (cfg : CFG) (p s : Nat) (h : cfg.preds s = none) :
    cfg.RemoveEdge p s = cfg ∧ (cfg.AddEdge p s).preds s = some [p] := by
  refine ⟨RemoveEdge_of_no_entry h, ?_⟩
  rw [preds_AddEdge_self]
  simp [CFG.predList, h]

/-- C9 witness: instantiation of the amended statement on the empty CFG and
the unregistered pair 1→2. -/
theorem edge_mutation_total_witness :
    CFG.empty.preds 2 = none ∧
    CFG.empty.RemoveEdge 1 2 = CFG.empty ∧
    (CFG.empty.AddEdge 1 2).preds 2 = some [1] :=
  ⟨rfl, (edge_mutation_total CFG.empty 1 2 rfl).1,
    (edge_mutation_total CFG.empty 1 2 rfl).2⟩

/-- C8: in a constructed CFG (unique block ids, ids and targets distinct
from the pseudo labels), every block no other block targets has predecessor
list exactly [pseudo-entry], and every block whose terminator names zero
successors occurs exactly once in the pseudo-exit's predecessor list. -/
theorem buildCFG_pseudo_edges (blocks : List BasicBlock)
    (hnd : (blocks.map BasicBlock.id).Nodup)
    (hpx : pseudoExitId ∉ blocks.map BasicBlock.id)
    (hpxt : ∀ b ∈ blocks, pseudoExitId ∉ b.targets) :
    (∀ b ∈ blocks, noRealPreds blocks b.id →
      (buildCFG blocks).preds b.id = some [pseudoEntryId]) ∧
    ∀ b ∈ blocks, b.succLabels = [] →
      ((buildCFG blocks).predList pseudoExitId).count b.id = 1 := by
  constructor
  · intro b hb hnp
    have hbx : b.id ≠ pseudoExitId := by
      intro e
      exact hpx (e ▸ List.mem_map_of_mem BasicBlock.id hb)
    have h1 : (blocks.foldl CFG.RegisterBlock CFG.empty).predList b.id = [] := by
      rw [registerFold_predList_untargeted blocks CFG.empty b.id hnp]
      rfl
    have h2 := entryFold_predList_self blocks
      (blocks.foldl CFG.RegisterBlock CFG.empty) b hnd hb
    rw [h1, if_pos rfl] at h2
    have h3 : (buildCFG blocks).predList b.id = [pseudoEntryId] := by
      rw [buildCFG_eq, exitFold_predList_ne blocks _ b.id hbx, h2]
      rfl
    have := preds_of_predList_ne_nil (by rw [h3]; simp)
    rw [h3] at this
    exact this
  · intro b hb hsucc
    have h1 : (blocks.foldl CFG.RegisterBlock CFG.empty).predList pseudoExitId
        = [] := by
      rw [registerFold_predList_untargeted blocks CFG.empty pseudoExitId hpxt]
      rfl
    have h2 := entryFold_predList_not_mem blocks
      (blocks.foldl CFG.RegisterBlock CFG.empty) pseudoExitId hpx
    rw [buildCFG_eq]
    apply exitFold_count_self blocks _ b hnd hb hsucc
    rw [h2, h1]
    rfl

/-- C8 witness: for the function [1→2, 2 returns], block 1 (no real
predecessors) gets exactly the pseudo-entry predecessor, and block 2 (no
successors) appears exactly once in the pseudo-exit's predecessor list. -/
theorem buildCFG_pseudo_edges_witness :
    ((⟨1, [2], none, none⟩ : BasicBlock) ∈ entryExitBlocks ∧
      noRealPreds entryExitBlocks 1) ∧
    (buildCFG entryExitBlocks).preds 1 = some [pseudoEntryId] ∧
    ((buildCFG entryExitBlocks).predList pseudoExitId).count 2 = 1 :=
  ⟨⟨by decide, by decide⟩,
    (buildCFG_pseudo_edges entryExitBlocks (by decide) (by decide)
      (by decide)).1 ⟨1, [2], none, none⟩ (by decide) (by decide),
    (buildCFG_pseudo_edges entryExitBlocks (by decide) (by decide)
      (by decide)).2 ⟨2, [], none, none⟩ (by decide) (by decide)⟩

/-- C6: for every CFG state and every start block, the reverse-post-order
visitor sequence is exactly the reverse of the post-order visitor sequence
for that same state — it is produced by reversing it, not recomputed. -/
theorem reversePostOrder_is_reverse (cfg : CFG) (bb : Nat) :
    cfg.ForEachBlockInReversePostOrder bb =
      (cfg.ForEachBlockInPostOrder bb).reverse := rfl

/-- C7: FindReachableBlocks(start) is exactly the set of blocks the
post-order traversal delivers to its visitor; the traversal delivers each
block reachable from start over real successor edges exactly once and never
delivers an unreachable block. -/
theorem findReachableBlocks_spec (cfg : CFG) (start : Nat) :
    cfg.FindReachableBlocks start =
      (cfg.ForEachBlockInPostOrder start).toFinset ∧
    (cfg.ForEachBlockInPostOrder start).Nodup ∧
    ∀ x, x ∈ cfg.ForEachBlockInPostOrder start ↔ Reach (cfgSuccs cfg) start x :=
  ⟨rfl, (postorder_spec cfg start).1, (postorder_spec cfg start).2⟩
